import Mathlib

/-!
Shallow embedding of `src/top5.py`, a point-in-time "top N" diagnostic tool:
the N processes using the most memory (enriched with per-process disk I/O)
and the N largest files on the filesystem.

Modelling conventions:
* The live process table is an oracle value `ProcTable`: each enumerated
  process handle carries its pid together with the outcome (`Except`) of the
  per-process metric queries (`memory_full_info` / `memory_percent` /
  `username` / `name`), which in the Python code either all succeed inside
  one `try` or raise a single exception.
* Python exceptions are the inductive `PyErr`.  `psutil.ZombieProcess` is a
  subclass of `psutil.NoSuchProcess`, which matters for which `except` arm
  catches it; we keep a separate constructor and record the subclass fact in
  the catch predicates.
* Everything the script prints apart from the data rows themselves is
  modelled as a `Msg` value; functions that print return their messages.
* Python's `sorted(..., key=..., reverse=True)` is a stable descending
  sort; it is embedded as `List.insertionSort` with the reflexive total
  relation `memGe` (Mathlib's insertion sort is stable, so it is
  extensionally the same function).
* Memory percentages (`float` in Python) are embedded as `Rat`; the code
  only ever compares and copies them, never does float-specific arithmetic.
-/

/-- Python exception values raised by the psutil / OS boundary. -/
inductive PyErr where
  | noSuchProcess
  | accessDenied
  | zombieProcess
  | other (msg : String)
deriving DecidableEq, Repr

/-- The per-process attributes read in phase one of `get_top_memory_processes`
(`p.name()`, `p.memory_percent()`, `mem_info.rss`, `p.username()`). -/
structure ProcMetrics where
  name : String
  memPercent : Rat
  rss : Nat
  username : String
deriving DecidableEq, Repr

instance {ε α : Type} [DecidableEq ε] [DecidableEq α] :
    DecidableEq (Except ε α) := fun a b =>
  match a, b with
  | .ok x, .ok y =>
    if h : x = y then isTrue (by rw [h])
    else isFalse (fun hc => by cases hc; exact h rfl)
  | .ok _, .error _ => isFalse (fun hc => by cases hc)
  | .error _, .ok _ => isFalse (fun hc => by cases hc)
  | .error x, .error y =>
    if h : x = y then isTrue (by rw [h])
    else isFalse (fun hc => by cases hc; exact h rfl)

/-- One enumeration pass over the live process table: each handle yields its
pid and either the successfully read metrics or the exception raised. -/
abbrev ProcTable := List (Nat × Except PyErr ProcMetrics)

/-- A character-level string, used for file paths and pipeline lines. -/
abbrev Line := List Char

/-- Diagnostic lines printed by the script (everything except data rows). -/
inductive Msg where
  | errorGettingProcessList (e : PyErr)
  | errorGettingMemoryInfo (pid : Nat) (e : PyErr)
  | errorGettingDiskUsage (pid : Nat) (e : PyErr)
  | skippingInvalidLine (line : Line)
  | errorGettingTopDiskFiles (e : PyErr)
  | noProcessesFound
  | noFilesFound
deriving DecidableEq, Repr

/-- The tuple appended to the `process_memory` list for a surviving process:
`(p.pid, p.name(), mem_percent, mem_info.rss, username)`. -/
structure ProcEntry where
  pid : Nat
  name : String
  memPercent : Rat
  rss : Nat
  username : String
deriving DecidableEq, Repr

/-- Whether the per-process metric query succeeded. -/
def isOkE (r : Except PyErr ProcMetrics) : Bool :=
  match r with
  | .ok _ => true
  | .error _ => false

/-- The exceptions caught silently by
`except (psutil.NoSuchProcess, psutil.AccessDenied, psutil.ZombieProcess): pass`. -/
def isSilentErr (e : PyErr) : Bool :=
  match e with
  | .noSuchProcess => true
  | .accessDenied => true
  | .zombieProcess => true
  | .other _ => false

/-- The entry built from a successful per-process read. -/
def mkEntry (pid : Nat) (m : ProcMetrics) : ProcEntry :=
  ⟨pid, m.name, m.memPercent, m.rss, m.username⟩

/-- The `for p in processes:` loop of `get_top_memory_processes`: appends a
tuple per successfully read process; the three racy psutil exceptions are
passed over silently, any other exception prints a diagnostic and the loop
continues.  Returns the accumulated `process_memory` list and the printed
messages, both in program order. -/
def processMemoryLoop : ProcTable → List ProcEntry × List Msg
  | [] => ([], [])
  | (pid, r) :: rest =>
    let (es, ms) := processMemoryLoop rest
    match r with
    | .ok m => (mkEntry pid m :: es, ms)
    | .error e =>
      if isSilentErr e then (es, ms)
      else (es, Msg.errorGettingMemoryInfo pid e :: ms)

/-- The descending comparison used by
`sorted(process_memory, key=lambda x: x[2], reverse=True)`:
`a` may come before `b` iff `a`'s memory percentage is at least `b`'s. -/
def memGe (a b : ProcEntry) : Prop := b.memPercent ≤ a.memPercent

instance : DecidableRel memGe := fun a b =>
  inferInstanceAs (Decidable (b.memPercent ≤ a.memPercent))

instance : IsTotal ProcEntry memGe :=
  ⟨fun a b => le_total b.memPercent a.memPercent⟩

instance : IsTrans ProcEntry memGe :=
  ⟨fun _ _ _ h1 h2 => le_trans h2 h1⟩

/-- `get_top_memory_processes(num_processes)`: enumerate the process table
(returning `[]` with a diagnostic if `psutil.process_iter()` itself raises),
collect per-process tuples skipping failures, stable-sort descending by
memory percentage, and return the first `num_processes` tuples. -/
def get_top_memory_processes (num_processes : Nat)
    (enum : Except PyErr ProcTable) : List ProcEntry × List Msg :=
  match enum with
  | .error e => ([], [Msg.errorGettingProcessList e])
  | .ok table =>
    let (process_memory, msgs) := processMemoryLoop table
    ((List.insertionSort memGe process_memory).take num_processes, msgs)

/-- The per-pid I/O-counter oracle consulted by `get_process_disk_usage`:
the outcome of `psutil.Process(pid).io_counters()`. -/
abbrev IOOracle := Nat → Except PyErr (Nat × Nat)

/-- The exceptions caught by the first arm
`except (psutil.NoSuchProcess, psutil.AccessDenied):` — this includes
`ZombieProcess`, a subclass of `NoSuchProcess` in psutil. -/
def isSilentIOErr (e : PyErr) : Bool :=
  match e with
  | .noSuchProcess => true
  | .accessDenied => true
  | .zombieProcess => true
  | .other _ => false

/-- `get_process_disk_usage(pid)`: return `(read_bytes, write_bytes)` on
success, `(0, 0)` on `NoSuchProcess`/`AccessDenied` silently, and `(0, 0)`
with a printed diagnostic on any other exception. -/
def get_process_disk_usage (io : IOOracle) (pid : Nat) :
    (Nat × Nat) × List Msg :=
  match io pid with
  | .ok rw => (rw, [])
  | .error e =>
    if isSilentIOErr e then ((0, 0), [])
    else ((0, 0), [Msg.errorGettingDiskUsage pid e])

/-- One displayed row of the process table (raw field values; fixed-width
formatting and MB conversion are rendering detail). `highlighted` records
the `memory_percent >= 100` red-highlight branch. -/
structure DisplayRow where
  pid : Nat
  username : String
  name : String
  memPercent : Rat
  memBytes : Nat
  readBytes : Nat
  writeBytes : Nat
  highlighted : Bool
deriving DecidableEq, Repr

/-- The row loop of `display_top_memory_processes`: for each finalist, in
rank order, look up its I/O counters and emit a row.  Also records, in
order, the pids for which `get_process_disk_usage` was called. -/
def displayLoop (io : IOOracle) : List ProcEntry → List DisplayRow × List Nat × List Msg
  | [] => ([], [], [])
  | e :: rest =>
    let rwm := get_process_disk_usage io e.pid
    let (rows, pids, msgs) := displayLoop io rest
    (⟨e.pid, e.username, e.name, e.memPercent, e.rss, rwm.1.1, rwm.1.2,
        decide (100 ≤ e.memPercent)⟩ :: rows,
      e.pid :: pids, rwm.2 ++ msgs)

/-- `display_top_memory_processes`: print a no-data message when the ranked
list is empty, otherwise emit one row per finalist. -/
def display_top_memory_processes (io : IOOracle) (tops : List ProcEntry) :
    List DisplayRow × List Nat × List Msg :=
  if tops = [] then ([], [], [Msg.noProcessesFound])
  else displayLoop io tops

/-- The decimal digit characters, used to model how `du -b` renders a size. -/
def digitChar (d : Nat) : Char :=
  match d with
  | 0 => '0' | 1 => '1' | 2 => '2' | 3 => '3' | 4 => '4'
  | 5 => '5' | 6 => '6' | 7 => '7' | 8 => '8' | _ => '9'

/-- Base-10 digits of `n`, least significant first, computed with explicit
fuel so that it is structurally recursive (kernel-reducible). -/
def digitsRevFuel : Nat → Nat → List Nat
  | 0, _ => []
  | fuel + 1, n => if n = 0 then [] else n % 10 :: digitsRevFuel fuel (n / 10)

/-- Base-10 digits of `n`, least significant first. -/
def natDigitsRev (n : Nat) : List Nat := digitsRevFuel n n

/-- Decimal rendering of a size, most significant digit first, as printed by
`du -b` (the external boundary); `0` renders as `"0"`. -/
def natChars (n : Nat) : Line :=
  if n = 0 then ['0'] else (natDigitsRev n).reverse.map digitChar

/-- Python's `int(s)` restricted to the plain digit strings that occur in
`du -b` output: succeeds on a nonempty all-digit string, fails otherwise. -/
def charsToNat? (l : Line) : Option Nat :=
  if l ≠ [] ∧ l.all Char.isDigit then
    some (l.foldl (fun n c => 10 * n + (c.toNat - 48)) 0)
  else none

/-- The whitespace set of Python's `str.split()` with no separator (the
characters for which `str.isspace()` holds): ASCII tab, LF, VT, FF, CR
(codes 9-13), the separators 28-31, space (32), next line (133), no-break
space (160), ogham space (5760), the Unicode spaces 8192-8202, the line
and paragraph separators (8232, 8233), narrow no-break space (8239),
medium mathematical space (8287) and ideographic space (12288).  Wider
than Lean's `Char.isWhitespace`. -/
def pyWs (c : Char) : Bool :=
  decide ((9 ≤ c.toNat ∧ c.toNat ≤ 13) ∨ (28 ≤ c.toNat ∧ c.toNat ≤ 32)
    ∨ c.toNat = 133 ∨ c.toNat = 160 ∨ c.toNat = 5760
    ∨ (8192 ≤ c.toNat ∧ c.toNat ≤ 8202) ∨ c.toNat = 8232 ∨ c.toNat = 8233
    ∨ c.toNat = 8239 ∨ c.toNat = 8287 ∨ c.toNat = 12288)

/-- The line-boundary set of Python's `str.splitlines()`: LF, VT, FF, CR
(codes 10-13), the file/group/record separators (28-30), next line (133)
and the line and paragraph separators (8232, 8233).  A path free of these
characters stays on one physical line from `du` through `sort`, `head`
and `splitlines`. -/
def isLineBoundary (c : Char) : Bool :=
  decide ((10 ≤ c.toNat ∧ c.toNat ≤ 13) ∨ (28 ≤ c.toNat ∧ c.toNat ≤ 30)
    ∨ c.toNat = 133 ∨ c.toNat = 8232 ∨ c.toNat = 8233)

/-- Worker for `words`: scan the line once; `acc` holds the characters of
the current in-progress word, in reverse. -/
def wordsAux : Line → Line → List Line
  | [], acc => if acc = [] then [] else [acc.reverse]
  | c :: cs, acc =>
    if pyWs c then
      if acc = [] then wordsAux cs [] else acc.reverse :: wordsAux cs []
    else wordsAux cs (c :: acc)

/-- Python's `line.split()` (no separator): the maximal runs of characters
that are not Python whitespace (`pyWs`), in order, empty runs discarded. -/
def words (l : Line) : List Line := wordsAux l []

/-- The text `du -b` writes for one regular file (without the terminating
newline): the size in decimal, a tab, then the raw path bytes.  `du`
prints the path unescaped when writing to a pipe, so a path containing a
newline makes this text span several physical lines downstream. -/
def duLine (f : Line × Nat) : Line := natChars f.2 ++ '\t' :: f.1

/-- Split on the embedded `'\n'` characters: the physical newline-delimited
records that `sort`, `head` and `splitlines` see for one `du` entry.  The
result is never empty; a newline-free text stays one record. -/
def splitNl : Line → List Line
  | [] => [[]]
  | c :: cs =>
    if c = '\n' then [] :: splitNl cs
    else
      match splitNl cs with
      | [] => [[c]]
      | w :: ws => (c :: w) :: ws

/-- The physical lines produced by `find / -type f -print0 | xargs -0 du -b`,
in filesystem discovery order: each file's `du` text, cut at its embedded
newlines into the records the rest of the pipeline operates on. -/
def duPhysLines (files : List (Line × Nat)) : List Line :=
  files.flatMap (fun f => splitNl (duLine f))

/-- The numeric sort key GNU `sort -n` extracts from a line: the value of
its leading digit run, `0` when there is none. -/
def sortNumKey (line : Line) : Nat :=
  match charsToNat? (line.takeWhile Char.isDigit) with
  | some v => v
  | none => 0

/-- Byte-wise (here character-wise) lexicographic comparison, as used by
GNU sort's last-resort tie-break; a proper prefix comes first. -/
def lexLe : Line → Line → Bool
  | [], _ => true
  | _ :: _, [] => false
  | a :: as, c :: cs => if a = c then lexLe as cs else decide (a < c)

/-- The ordering realised by `sort -nr`: larger numeric key first; on equal
keys the last-resort whole-line comparison, reversed by `-r`, puts the
lexicographically larger line first. -/
def rNR (a b : Line) : Prop :=
  sortNumKey b < sortNumKey a ∨ (sortNumKey a = sortNumKey b ∧ lexLe b a = true)

instance : DecidableRel rNR := fun a b =>
  inferInstanceAs (Decidable (sortNumKey b < sortNumKey a ∨
    (sortNumKey a = sortNumKey b ∧ lexLe b a = true)))

/-- The line list obtained in `get_top_disk_files` from
`find / -type f -print0 | xargs -0 du -b | sort -nr | head -n {num_files}`
followed by `result.stdout.strip().splitlines()`: `sort` and `head`
operate on physical newline-delimited records, so all du records —
including the fragments of paths that contain newlines — are sorted per
`sort -nr` and truncated to the first `n` by `head`; `splitlines` then
recovers those same records.  (Edge effects of `strip()` on the first and
last record and the non-newline `splitlines` boundaries inside a record
are outside the model; the theorems about parsed entries are stated for
paths free of all line-boundary characters, where none of these occur.) -/
def pipelineOutput (n : Nat) (files : List (Line × Nat)) : List Line :=
  (List.insertionSort rNR (duPhysLines files)).take n

/-- The Unix-branch parse loop of `get_top_disk_files`: each line is split
on whitespace; only lines with exactly two fields are kept, with the first
field parsed as the size (printing a skip message if `int()` fails) and the
second taken as the path; any other line is discarded with no message. -/
def parseLines : List Line → List (Line × Nat) × List Msg
  | [] => ([], [])
  | line :: restL =>
    let (fs, ms) := parseLines restL
    match words line with
    | [p0, p1] =>
      match charsToNat? p0 with
      | some sz => ((p1, sz) :: fs, ms)
      | none => (fs, Msg.skippingInvalidLine line :: ms)
    | _ => (fs, ms)

/-- `get_top_disk_files(num_files)` (Unix branch): run the shell pipeline
and parse its output; a top-level exception prints a diagnostic and yields
`[]`. -/
def get_top_disk_files (num_files : Nat)
    (fileEnum : Except PyErr (List (Line × Nat))) :
    List (Line × Nat) × List Msg :=
  match fileEnum with
  | .error e => ([], [Msg.errorGettingTopDiskFiles e])
  | .ok files => parseLines (pipelineOutput num_files files)

/-- `display_top_disk_files`: print a no-data message when the list is
empty, otherwise show the rows. -/
def display_top_disk_files (tops : List (Line × Nat)) :
    List (Line × Nat) × List Msg :=
  if tops = [] then ([], [Msg.noFilesFound])
  else (tops, [])

/-- Everything `main()` produces: the two sub-reports' rows, all diagnostic
messages grouped by origin, and the process exit code (the script never
calls `sys.exit`, so a completed run exits 0). -/
structure MainOut where
  procScanMsgs : List Msg
  procRows : List DisplayRow
  procDisplayMsgs : List Msg
  fileScanMsgs : List Msg
  fileRows : List (Line × Nat)
  fileDisplayMsgs : List Msg
  exitCode : Nat
deriving DecidableEq, Repr

/-- `main()`: run the process ranking (N = 5) and display it, then the file
scan (N = 5) and display it; always completes with exit code 0.  (Named
`top5Main` because Lean reserves `main` for executable entry points.) -/
def top5Main (procEnum : Except PyErr ProcTable) (io : IOOracle)
    (fileEnum : Except PyErr (List (Line × Nat))) : MainOut :=
  let pscan := get_top_memory_processes 5 procEnum
  let pdisp := display_top_memory_processes io pscan.1
  let fscan := get_top_disk_files 5 fileEnum
  let fdisp := display_top_disk_files fscan.1
  ⟨pscan.2, pdisp.1, pdisp.2.2, fscan.2, fdisp.1, fdisp.2, 0⟩

/-- Modelled from the spec (§4.1 TopKSelector): insert the offered item into
the held, descending-sorted state just after any items of equal score (so an
item never displaces an earlier tie). -/
def insertAfterTies (x : ProcEntry) : List ProcEntry → List ProcEntry
  | [] => [x]
  | y :: ys =>
    if x.memPercent ≤ y.memPercent then y :: insertAfterTies x ys
    else x :: y :: ys

/-- Modelled from the spec (§4.1 TopKSelector): `offer(item, score)` — if
fewer than k items are held, insert; otherwise insert and drop the new
minimum, which evicts the old minimum exactly when the offered score beats
it.  The held state never exceeds k items. -/
def selOffer (k : Nat) (st : List ProcEntry) (x : ProcEntry) : List ProcEntry :=
  (insertAfterTies x st).take k

/-- Modelled from the spec (§4.1 TopKSelector): run the bounded selector
over a stream of items and finalize; the state is kept sorted descending,
so finalize is the identity drain. -/
def topKSelect (k : Nat) (items : List ProcEntry) : List ProcEntry :=
  items.foldl (selOffer k) []

/-- The size-descending comparison on `(path, size)` pairs. -/
def sizeGe (a b : Line × Nat) : Prop := b.2 ≤ a.2

instance : DecidableRel sizeGe := fun a b =>
  inferInstanceAs (Decidable (b.2 ≤ a.2))

/-- Modelled from the spec (§8): the full-sort reference for the file
ranking — a stable descending sort of all `(path, size)` pairs by size,
truncated to the first `n`. -/
def specTopFiles (n : Nat) (files : List (Line × Nat)) : List (Line × Nat) :=
  (List.insertionSort sizeGe files).take n

/-- Demo table mixing successful reads with a silently-skipped zombie. -/
def mixTable : ProcTable :=
  [(1, .ok ⟨"a", 40, 0, "u"⟩), (2, .error .zombieProcess), (3, .ok ⟨"c", 90, 0, "u"⟩)]

/-- Demo oracle on which every I/O counter lookup raises `NoSuchProcess`. -/
def ioFailAll : IOOracle := fun _ => .error .noSuchProcess

/-- Demo single-finalist ranked list. -/
def topsOne : List ProcEntry := [⟨1, "n", 50, 100, "u"⟩]

/-- Demo file set: two files of equal size, discovery order `a` then `b`. -/
def tieFiles : List (Line × Nat) := [(['a'], 5), (['b'], 5)]

/-- Demo table whose top process by memory has pid 2. -/
def table6 : ProcTable :=
  [(2, .ok ⟨"b", 90, 0, "u"⟩), (3, .ok ⟨"c", 10, 0, "u"⟩)]

/-- Demo oracle answering every I/O lookup with `(1, 2)`. -/
def ioAll12 : IOOracle := fun _ => .ok (1, 2)

/-- Demo oracle agreeing with `ioAll12` on pid 2 only. -/
def ioOnly2 : IOOracle := fun p => if p = 2 then .ok (1, 2) else .error .accessDenied

/-- Demo table containing a process whose memory fraction exceeds 100. -/
def over100Table : ProcTable :=
  [(1, .ok ⟨"big", 150, 10, "r"⟩), (2, .ok ⟨"small", 99, 5, "r"⟩)]

/-- Demo file set: one large file whose path ends in a space. -/
def wsFile : List (Line × Nat) := [(['a', ' '], 100)]

/-- Demo file set with a single plain path. -/
def plainFile : List (Line × Nat) := [(['a'], 7)]

/-- Demo file set: one file of size 1000 whose path embeds a newline
followed by text shaped like a du record (`a` newline `900` tab `b`). -/
def nlFile : List (Line × Nat) :=
  [(['a', '\n', '9', '0', '0', '\t', 'b'], 1000)]

/-- Demo oracle raising an unexpected exception on every I/O lookup. -/
def ioBoom : IOOracle := fun _ => .error (.other "boom")

/-- Demo oracle answering every I/O lookup with `(3, 4)`. -/
def ioGood : IOOracle := fun _ => .ok (3, 4)

lemma processMemoryLoop_nil : processMemoryLoop [] = ([], []) := rfl

lemma processMemoryLoop_cons_ok (pid : Nat) (m : ProcMetrics) (rest : ProcTable) :
    processMemoryLoop ((pid, Except.ok m) :: rest) =
      (mkEntry pid m :: (processMemoryLoop rest).1, (processMemoryLoop rest).2) := rfl

lemma processMemoryLoop_cons_err (pid : Nat) (e : PyErr) (rest : ProcTable) :
    processMemoryLoop ((pid, Except.error e) :: rest) =
      if isSilentErr e then processMemoryLoop rest
      else ((processMemoryLoop rest).1,
        Msg.errorGettingMemoryInfo pid e :: (processMemoryLoop rest).2) := by
  by_cases h : isSilentErr e <;> simp [processMemoryLoop, h]

lemma processMemoryLoop_length (table : ProcTable) :
    (processMemoryLoop table).1.length = table.countP (fun e => isOkE e.2) := by
  induction table with
  | nil => rfl
  | cons hd tl ih =>
    obtain ⟨pid, r⟩ := hd
    cases r with
    | ok m =>
      simp [processMemoryLoop_cons_ok, List.countP_cons, isOkE, ih]
    | error e =>
      rw [processMemoryLoop_cons_err]
      by_cases h : isSilentErr e <;>
        simp [h, List.countP_cons, isOkE, ih]

lemma insertionSort_filter_score (q : Rat) (l : List ProcEntry) :
    (List.insertionSort memGe l).filter (fun e => decide (e.memPercent = q)) =
      l.filter (fun e => decide (e.memPercent = q)) := by
  set p : ProcEntry → Bool := fun e => decide (e.memPercent = q) with hp
  have hpair : (l.filter p).Pairwise memGe := by
    apply List.pairwise_of_forall_mem_list
    intro a ha b hb
    have ha' : a.memPercent = q := by simpa [hp] using List.of_mem_filter ha
    have hb' : b.memPercent = q := by simpa [hp] using List.of_mem_filter hb
    simp [memGe, ha', hb']
  have hsub : (l.filter p).Sublist (List.insertionSort memGe l) :=
    List.sublist_insertionSort hpair (List.filter_sublist l)
  have hsub2 : ((l.filter p).filter p).Sublist ((List.insertionSort memGe l).filter p) :=
    List.Sublist.filter p hsub
  rw [List.filter_filter] at hsub2
  have hself : (l.filter fun a => p a && p a) = l.filter p := by
    simp
  rw [hself] at hsub2
  have hperm : ((List.insertionSort memGe l).filter p).Perm (l.filter p) :=
    List.Perm.filter p (List.perm_insertionSort memGe l)
  exact (List.Sublist.eq_of_length hsub2 hperm.length_eq.symm).symm

/-- C1: for every requested count `n` and every process table, the ranked
list returned by `get_top_memory_processes` has length
`min n (number of processes whose metrics were successfully read)`, is
sorted by memory fraction in non-increasing order, and keeps ties between
equal memory fractions in discovery (enumeration) order: for each score
`q`, the output's entries of score `q` are an initial segment, in order, of
the candidate list's entries of score `q`. -/
theorem ranked_output_length_sorted_stable (n : Nat) (table : ProcTable) :
    ((get_top_memory_processes n (Except.ok table)).1).length
        = min n (table.countP (fun e => isOkE e.2))
    ∧ ((get_top_memory_processes n (Except.ok table)).1).Sorted memGe
    ∧ ∀ q : Rat, ∃ t,
        ((get_top_memory_processes n (Except.ok table)).1).filter
            (fun e => decide (e.memPercent = q)) ++ t =
          (processMemoryLoop table).1.filter (fun e => decide (e.memPercent = q)) := by
  have hfst : (get_top_memory_processes n (Except.ok table)).1
      = (List.insertionSort memGe (processMemoryLoop table).1).take n := rfl
  refine ⟨?_, ?_, ?_⟩
  · rw [hfst, List.length_take, List.length_insertionSort, processMemoryLoop_length]
  · rw [hfst]
    exact List.Pairwise.sublist (List.take_sublist n _)
      (List.sorted_insertionSort memGe _)
  · intro q
    refine ⟨((List.insertionSort memGe (processMemoryLoop table).1).drop n).filter
      (fun e => decide (e.memPercent = q)), ?_⟩
    rw [hfst, ← List.filter_append, List.take_append_drop]
    exact insertionSort_filter_score q _

lemma isOkE_ok (m : ProcMetrics) : isOkE (Except.ok m) = true := rfl

lemma isOkE_err (e : PyErr) : isOkE (Except.error e : Except PyErr ProcMetrics) = false := rfl

lemma processMemoryLoop_filter_ok (table : ProcTable) :
    (processMemoryLoop (table.filter (fun e => isOkE e.2))).1 =
      (processMemoryLoop table).1 := by
  induction table with
  | nil => rfl
  | cons hd tl ih =>
    obtain ⟨pid, r⟩ := hd
    cases r with
    | ok m =>
      simp only [List.filter_cons, isOkE_ok, if_true, processMemoryLoop_cons_ok, ih]
    | error e =>
      simp only [List.filter_cons, isOkE_err]
      rw [processMemoryLoop_cons_err]
      by_cases h : isSilentErr e <;> simp [h, ih]

lemma processMemoryLoop_msgs_nil (table : ProcTable)
    (h : ∀ p ∈ table, ∀ err, p.2 = Except.error err → isSilentErr err = true) :
    (processMemoryLoop table).2 = [] := by
  induction table with
  | nil => rfl
  | cons hd tl ih =>
    obtain ⟨pid, r⟩ := hd
    have ih' := ih (fun p hp => h p (List.mem_cons_of_mem _ hp))
    cases r with
    | ok m => simp [processMemoryLoop_cons_ok, ih']
    | error e =>
      have hs : isSilentErr e = true :=
        h (pid, Except.error e) (List.mem_cons_self _ _) e rfl
      rw [processMemoryLoop_cons_err]
      simp [hs, ih']

/-- C3: failed per-process metric reads are skipped without aborting the
enumeration: the ranked list over any table equals the ranked list over the
table restricted to its successfully read processes; and when every failure
is of the racy kind (process gone, zombie, access denied), nothing is
printed — the skips are silent. -/
theorem failed_processes_silently_skipped (n : Nat) (table : ProcTable) :
    (get_top_memory_processes n (Except.ok table)).1 =
      (get_top_memory_processes n (Except.ok (table.filter (fun e => isOkE e.2)))).1
    ∧ ((∀ p ∈ table, ∀ err, p.2 = Except.error err → isSilentErr err = true) →
        (get_top_memory_processes n (Except.ok table)).2 = []) := by
  constructor
  · have h1 : (get_top_memory_processes n (Except.ok table)).1
        = (List.insertionSort memGe (processMemoryLoop table).1).take n := rfl
    have h2 : (get_top_memory_processes n
          (Except.ok (table.filter (fun e => isOkE e.2)))).1
        = (List.insertionSort memGe
            (processMemoryLoop (table.filter (fun e => isOkE e.2))).1).take n := rfl
    rw [h1, h2, processMemoryLoop_filter_ok]
  · intro h
    have h2 : (get_top_memory_processes n (Except.ok table)).2
        = (processMemoryLoop table).2 := rfl
    rw [h2]
    exact processMemoryLoop_msgs_nil table h

/-- Witness for C3 at a concrete mixed table: the zombie entry changes
nothing relative to the successes-only table, and no message is printed. -/
theorem failed_processes_silently_skipped_witness :
    (get_top_memory_processes 5 (Except.ok mixTable)).1 =
      (get_top_memory_processes 5
        (Except.ok (mixTable.filter (fun e => isOkE e.2)))).1
    ∧ (get_top_memory_processes 5 (Except.ok mixTable)).2 = [] :=
  ⟨(failed_processes_silently_skipped 5 mixTable).1,
    (failed_processes_silently_skipped 5 mixTable).2 (by
      intro p hp err herr
      simp only [mixTable, List.mem_cons, List.not_mem_nil, or_false] at hp
      rcases hp with rfl | rfl | rfl <;> simp_all [isSilentErr]
      subst herr
      rfl)⟩

lemma gpd_error_eq (io : IOOracle) (pid : Nat) (e : PyErr)
    (he : io pid = Except.error e) :
    (get_process_disk_usage io pid).1 = (0, 0) := by
  simp only [get_process_disk_usage, he]
  split <;> rfl

lemma gpd_ok_eq (io : IOOracle) (pid : Nat) (v : Nat × Nat)
    (hv : io pid = Except.ok v) :
    (get_process_disk_usage io pid).1 = v := by
  simp only [get_process_disk_usage, hv]

/-- C10: `get_process_disk_usage` is total at its interface: whatever the
I/O-counter lookup does, it returns a pair of natural numbers — the looked
up counters on success and `(0, 0)` on any error whatsoever, racy or
unexpected alike. -/
theorem disk_usage_total_on_error (io : IOOracle) (pid : Nat) :
    (∀ e : PyErr, io pid = Except.error e →
        (get_process_disk_usage io pid).1 = (0, 0))
    ∧ ∀ v, io pid = Except.ok v → (get_process_disk_usage io pid).1 = v :=
  ⟨fun e he => gpd_error_eq io pid e he, fun v hv => gpd_ok_eq io pid v hv⟩

/-- Witness for C10: an unexpected exception yields `(0, 0)`, a successful
lookup yields the counters unchanged. -/
theorem disk_usage_total_on_error_witness :
    (get_process_disk_usage ioBoom 7).1 = (0, 0)
    ∧ (get_process_disk_usage ioGood 7).1 = (3, 4) :=
  ⟨(disk_usage_total_on_error ioBoom 7).1 (.other "boom") rfl,
    (disk_usage_total_on_error ioGood 7).2 (3, 4) rfl⟩

lemma displayLoop_rows (io : IOOracle) (tops : List ProcEntry) :
    (displayLoop io tops).1 = tops.map (fun e =>
      (⟨e.pid, e.username, e.name, e.memPercent, e.rss,
        (get_process_disk_usage io e.pid).1.1,
        (get_process_disk_usage io e.pid).1.2,
        decide (100 ≤ e.memPercent)⟩ : DisplayRow)) := by
  induction tops with
  | nil => rfl
  | cons e rest ih => simp [displayLoop, ih]

lemma displayLoop_pids (io : IOOracle) (tops : List ProcEntry) :
    (displayLoop io tops).2.1 = tops.map ProcEntry.pid := by
  induction tops with
  | nil => rfl
  | cons e rest ih => simp [displayLoop, ih]

/-- C4: a finalist whose second-phase I/O lookup fails is not dropped: the
displayed table has one row per finalist, and the row at the failing
finalist's rank carries its pid with read and write counters substituted
by 0. -/
theorem io_failure_keeps_rank_zero_counters (io : IOOracle)
    (tops : List ProcEntry) (i : Nat) (hi : i < tops.length) (e : PyErr)
    (hfail : io (tops[i].pid) = Except.error e) :
    (display_top_memory_processes io tops).1.length = tops.length
    ∧ ∃ hj : i < (display_top_memory_processes io tops).1.length,
        ((display_top_memory_processes io tops).1[i]).pid = tops[i].pid
        ∧ ((display_top_memory_processes io tops).1[i]).readBytes = 0
        ∧ ((display_top_memory_processes io tops).1[i]).writeBytes = 0 := by
  have hne : tops ≠ [] := List.ne_nil_of_length_pos (by omega)
  have hdisp : (display_top_memory_processes io tops).1 = (displayLoop io tops).1 := by
    simp [display_top_memory_processes, hne]
  rw [hdisp, displayLoop_rows]
  have hzero : (get_process_disk_usage io (tops[i].pid)).1 = (0, 0) :=
    gpd_error_eq io _ e hfail
  refine ⟨by simp, ?_⟩
  have hj : i < (tops.map (fun e =>
      (⟨e.pid, e.username, e.name, e.memPercent, e.rss,
        (get_process_disk_usage io e.pid).1.1,
        (get_process_disk_usage io e.pid).1.2,
        decide (100 ≤ e.memPercent)⟩ : DisplayRow))).length := by
    simpa using hi
  refine ⟨hj, ?_⟩
  simp [List.getElem_map, hzero]

/-- Witness for C4: with a single finalist whose I/O lookup raises, the row
at rank 0 keeps the pid and shows zero counters. -/
theorem io_failure_keeps_rank_zero_counters_witness :
    (display_top_memory_processes ioFailAll topsOne).1.length = topsOne.length
    ∧ ∃ hj : 0 < (display_top_memory_processes ioFailAll topsOne).1.length,
        ((display_top_memory_processes ioFailAll topsOne).1[0]).pid = topsOne[0].pid
        ∧ ((display_top_memory_processes ioFailAll topsOne).1[0]).readBytes = 0
        ∧ ((display_top_memory_processes ioFailAll topsOne).1[0]).writeBytes = 0 :=
  io_failure_keeps_rank_zero_counters ioFailAll topsOne 0 (by decide)
    PyErr.noSuchProcess rfl

/-- C6: the two-phase design at work: during display, exactly the pids of
the finalized ranked list have their I/O counters queried, in rank order
(phase one takes no I/O oracle at all); consequently the displayed rows are
unchanged under any I/O oracle that agrees on the finalists' pids. -/
theorem io_lookup_only_finalists (n : Nat) (enum : Except PyErr ProcTable)
    (io io' : IOOracle) :
    (display_top_memory_processes io (get_top_memory_processes n enum).1).2.1 =
      (get_top_memory_processes n enum).1.map ProcEntry.pid
    ∧ ((∀ p ∈ (get_top_memory_processes n enum).1.map ProcEntry.pid,
          io' p = io p) →
        (display_top_memory_processes io' (get_top_memory_processes n enum).1).1 =
          (display_top_memory_processes io (get_top_memory_processes n enum).1).1) := by
  set tops := (get_top_memory_processes n enum).1 with htops
  constructor
  · by_cases h : tops = []
    · simp [display_top_memory_processes, h]
    · simp [display_top_memory_processes, h, displayLoop_pids]
  · intro hag
    by_cases h : tops = []
    · simp [display_top_memory_processes, h]
    · simp only [display_top_memory_processes, h, if_false]
      rw [displayLoop_rows, displayLoop_rows]
      apply List.map_congr_left
      intro e he
      have hpe : io' e.pid = io e.pid := hag e.pid (List.mem_map_of_mem _ he)
      simp [get_process_disk_usage, hpe]

/-- Witness for C6: with one finalist (pid 2), an oracle that agrees with
the original only on pid 2 produces identical rows, and the recorded
queried pids are exactly the finalists'. -/
theorem io_lookup_only_finalists_witness :
    (display_top_memory_processes ioAll12
        (get_top_memory_processes 1 (Except.ok table6)).1).2.1 =
      (get_top_memory_processes 1 (Except.ok table6)).1.map ProcEntry.pid
    ∧ (display_top_memory_processes ioOnly2
          (get_top_memory_processes 1 (Except.ok table6)).1).1 =
        (display_top_memory_processes ioAll12
          (get_top_memory_processes 1 (Except.ok table6)).1).1 :=
  ⟨(io_lookup_only_finalists 1 (Except.ok table6) ioAll12 ioOnly2).1,
    (io_lookup_only_finalists 1 (Except.ok table6) ioAll12 ioOnly2).2 (by
      intro p hp
      have hfin : (get_top_memory_processes 1 (Except.ok table6)).1.map
          ProcEntry.pid = [2] := by decide
      rw [hfin] at hp
      simp only [List.mem_singleton] at hp
      subst hp
      rfl)⟩

/-- C7: a total failure of one sub-scan is isolated: it produces an empty
result and an explicit no-data message for that sub-report only, while the
other sub-report is computed and displayed exactly as it would be on its
own, and the program still completes with exit code 0. -/
theorem total_subscan_failure_isolated (e : PyErr) (io : IOOracle)
    (fe : Except PyErr (List (Line × Nat))) (pe : Except PyErr ProcTable) :
    ((top5Main (Except.error e) io fe).procRows = []
      ∧ (top5Main (Except.error e) io fe).procDisplayMsgs = [Msg.noProcessesFound]
      ∧ (top5Main (Except.error e) io fe).fileRows
          = (display_top_disk_files (get_top_disk_files 5 fe).1).1
      ∧ (top5Main (Except.error e) io fe).fileDisplayMsgs
          = (display_top_disk_files (get_top_disk_files 5 fe).1).2
      ∧ (top5Main (Except.error e) io fe).exitCode = 0)
    ∧ ((top5Main pe io (Except.error e)).fileRows = []
      ∧ (top5Main pe io (Except.error e)).fileDisplayMsgs = [Msg.noFilesFound]
      ∧ (top5Main pe io (Except.error e)).procRows
          = (display_top_memory_processes io (get_top_memory_processes 5 pe).1).1
      ∧ (top5Main pe io (Except.error e)).exitCode = 0) :=
  ⟨⟨rfl, rfl, rfl, rfl, rfl⟩, ⟨rfl, rfl, rfl, rfl⟩⟩

lemma processMemoryLoop_mem (table : ProcTable) (pid : Nat) (m : ProcMetrics)
    (h : (pid, Except.ok m) ∈ table) :
    mkEntry pid m ∈ (processMemoryLoop table).1 := by
  induction table with
  | nil => cases h
  | cons hd tl ih =>
    rcases List.mem_cons.mp h with heq | hmem
    · rw [← heq, processMemoryLoop_cons_ok]
      exact List.mem_cons_self _ _
    · obtain ⟨pid2, r⟩ := hd
      cases r with
      | ok m2 =>
        rw [processMemoryLoop_cons_ok]
        exact List.mem_cons_of_mem _ (ih hmem)
      | error e2 =>
        rw [processMemoryLoop_cons_err]
        by_cases hs : isSilentErr e2 <;> simp only [hs, if_true, if_false] <;>
          exact ih hmem

/-- C8: the ranker neither clamps nor special-cases memory fractions above
100: a successfully read process with fraction above 100 either appears in
the ranked list with all its raw values unmodified, or is excluded only
because the list is already full of processes whose raw fractions are at
least as large. -/
theorem no_clamp_above_100 (n : Nat) (table : ProcTable) (pid : Nat)
    (m : ProcMetrics) (hmem : (pid, Except.ok m) ∈ table)
    (hover : 100 < m.memPercent) :
    (∃ e ∈ (get_top_memory_processes n (Except.ok table)).1,
        e.pid = pid ∧ e.name = m.name ∧ e.memPercent = m.memPercent
          ∧ e.rss = m.rss ∧ e.username = m.username)
    ∨ ((get_top_memory_processes n (Except.ok table)).1.length = n
        ∧ ∀ e ∈ (get_top_memory_processes n (Except.ok table)).1,
            m.memPercent ≤ e.memPercent) := by
  have hout : (get_top_memory_processes n (Except.ok table)).1
      = (List.insertionSort memGe (processMemoryLoop table).1).take n := rfl
  set s := List.insertionSort memGe (processMemoryLoop table).1 with hsdef
  have hx : mkEntry pid m ∈ s :=
    (List.mem_insertionSort memGe).mpr (processMemoryLoop_mem table pid m hmem)
  by_cases hin : mkEntry pid m ∈ s.take n
  · left
    exact ⟨mkEntry pid m, by rw [hout]; exact hin, rfl, rfl, rfl, rfl, rfl⟩
  · right
    have hsplit : s.take n ++ s.drop n = s := List.take_append_drop n s
    have hxdrop : mkEntry pid m ∈ s.drop n := by
      rcases List.mem_append.mp (by rw [hsplit]; exact hx) with h1 | h2
      · exact absurd h1 hin
      · exact h2
    have hlen : n < s.length := by
      by_contra hle
      push_neg at hle
      rw [List.drop_eq_nil_of_le hle] at hxdrop
      cases hxdrop
    constructor
    · rw [hout, List.length_take]
      omega
    · intro e he
      have hsorted : s.Pairwise memGe := List.sorted_insertionSort memGe _
      have hpair := (List.pairwise_append.mp (by rw [hsplit]; exact hsorted)).2.2
      have := hpair e (by rw [hout] at he; exact he) (mkEntry pid m) hxdrop
      simpa [memGe, mkEntry] using this

/-- Witness for C8: a process at fraction 150 outranks one at 99 and is
returned with the raw value 150. -/
theorem no_clamp_above_100_witness :
    (∃ e ∈ (get_top_memory_processes 1 (Except.ok over100Table)).1,
        e.pid = 1 ∧ e.name = (⟨"big", 150, 10, "r"⟩ : ProcMetrics).name
          ∧ e.memPercent = (⟨"big", 150, 10, "r"⟩ : ProcMetrics).memPercent
          ∧ e.rss = (⟨"big", 150, 10, "r"⟩ : ProcMetrics).rss
          ∧ e.username = (⟨"big", 150, 10, "r"⟩ : ProcMetrics).username)
    ∨ ((get_top_memory_processes 1 (Except.ok over100Table)).1.length = 1
        ∧ ∀ e ∈ (get_top_memory_processes 1 (Except.ok over100Table)).1,
            (⟨"big", 150, 10, "r"⟩ : ProcMetrics).memPercent ≤ e.memPercent) :=
  no_clamp_above_100 1 over100Table 1 ⟨"big", 150, 10, "r"⟩
    (by decide) (by decide)

lemma orderedInsert_insertAfterTies (a x : ProcEntry) (s : List ProcEntry) :
    List.orderedInsert memGe a (insertAfterTies x s) =
      insertAfterTies x (List.orderedInsert memGe a s) := by
  induction s with
  | nil =>
    by_cases h : x.memPercent ≤ a.memPercent <;>
      simp [insertAfterTies, List.orderedInsert, memGe, h]
  | cons y ys ih =>
    by_cases hxy : x.memPercent ≤ y.memPercent
    · by_cases hay : y.memPercent ≤ a.memPercent
      · have hxa : x.memPercent ≤ a.memPercent := le_trans hxy hay
        simp [insertAfterTies, List.orderedInsert, memGe, hxy, hay, hxa]
      · simp [insertAfterTies, List.orderedInsert, memGe, hxy, hay, ih]
    · by_cases hay : y.memPercent ≤ a.memPercent
      · by_cases hxa : x.memPercent ≤ a.memPercent
        · simp [insertAfterTies, List.orderedInsert, memGe, hxy, hay, hxa]
        · simp [insertAfterTies, List.orderedInsert, memGe, hxy, hay, hxa]
      · have hxa : ¬ x.memPercent ≤ a.memPercent := by
          intro hc
          exact hxy (le_trans hc (le_of_not_le hay))
        simp [insertAfterTies, List.orderedInsert, memGe, hxy, hay, hxa]

lemma insertionSort_append_singleton (l : List ProcEntry) (x : ProcEntry) :
    List.insertionSort memGe (l ++ [x]) =
      insertAfterTies x (List.insertionSort memGe l) := by
  induction l with
  | nil => simp [List.insertionSort, List.orderedInsert, insertAfterTies]
  | cons a l ih =>
    simp only [List.cons_append, List.insertionSort, List.append_eq]
    rw [ih, orderedInsert_insertAfterTies]

lemma take_insertAfterTies_take (k : Nat) (x : ProcEntry)
    (s : List ProcEntry) :
    (insertAfterTies x (s.take k)).take k = (insertAfterTies x s).take k := by
  induction s generalizing k with
  | nil => simp
  | cons y ys ih =>
    cases k with
    | zero => simp
    | succ k =>
      simp only [List.take_succ_cons, insertAfterTies]
      by_cases h : x.memPercent ≤ y.memPercent
      · simp only [if_pos h, List.take_succ_cons]
        congr 1
        exact ih k
      · simp only [if_neg h, List.take_succ_cons]
        congr 1
        cases k with
        | zero => simp
        | succ k2 =>
          simp only [List.take_succ_cons]
          congr 1
          rw [List.take_take]
          congr 1
          exact min_eq_left (by omega)

lemma topKSelect_eq (k : Nat) (items : List ProcEntry) :
    topKSelect k items = (List.insertionSort memGe items).take k := by
  induction items using List.reverseRecOn with
  | nil => simp [topKSelect, List.insertionSort]
  | append_singleton l x ih =>
    show List.foldl (selOffer k) [] (l ++ [x]) = _
    rw [List.foldl_append]
    simp only [List.foldl_cons, List.foldl_nil]
    have hsel : List.foldl (selOffer k) [] l = topKSelect k l := rfl
    rw [hsel, ih]
    show (insertAfterTies x ((List.insertionSort memGe l).take k)).take k = _
    rw [take_insertAfterTies_take, insertionSort_append_singleton]

/-- C5 counterexample: the file-scan selection does not return the first N
of a stable descending sort.  With two files of equal size offered in the
order `a` then `b` and N = 1, `sort -nr` breaks the tie by its reversed
last-resort whole-line comparison and keeps `b`, while the stable full-sort
reference keeps `a`. -/
theorem file_selection_tiebreak_not_stable :
    (get_top_disk_files 1 (Except.ok tieFiles)).1 ≠ specTopFiles 1 tieFiles := by
  decide

/-- C5 amended: the process-side selection does satisfy the property: the
ranked list equals the result of the spec's bounded top-K selector (offer
each candidate, finalize), which in turn is the first N of a stable full
descending sort of all offered items.  The file-side selection instead
delegates to the external `sort -nr`, whose tie order is
reverse-lexicographic, not discovery order. -/
theorem process_selection_refines_topk_selector (n : Nat) (table : ProcTable) :
    (get_top_memory_processes n (Except.ok table)).1 =
      topKSelect n (processMemoryLoop table).1 := by
  rw [topKSelect_eq]
  rfl

lemma digitChar_isDigit (d : Nat) : (digitChar d).isDigit = true := by
  unfold digitChar
  split <;> decide

lemma digitChar_not_pyWs (d : Nat) : pyWs (digitChar d) = false := by
  unfold digitChar
  split <;> decide

lemma digitChar_val (d : Nat) (h : d < 10) : (digitChar d).toNat - 48 = d := by
  interval_cases d <;> decide

lemma digitsRevFuel_lt (fuel n d : Nat) (h : d ∈ digitsRevFuel fuel n) :
    d < 10 := by
  induction fuel generalizing n with
  | zero => cases h
  | succ fuel ih =>
    by_cases hn : n = 0
    · simp [digitsRevFuel, hn] at h
    · simp only [digitsRevFuel, hn, if_false] at h
      rcases List.mem_cons.mp h with rfl | h2
      · exact Nat.mod_lt _ (by omega)
      · exact ih _ h2

lemma digitsRevFuel_eq_digits (fuel n : Nat) (h : n ≤ fuel) :
    digitsRevFuel fuel n = Nat.digits 10 n := by
  induction fuel generalizing n with
  | zero =>
    have : n = 0 := by omega
    subst this
    simp [digitsRevFuel, Nat.digits_zero]
  | succ fuel ih =>
    by_cases hn : n = 0
    · subst hn
      simp [digitsRevFuel, Nat.digits_zero]
    · have hdiv : n / 10 ≤ fuel := by
        have : n / 10 < n := Nat.div_lt_self (by omega) (by omega)
        omega
      rw [Nat.digits_def' (by omega : (1:Nat) < 10) (by omega : 0 < n)]
      simp only [digitsRevFuel, hn, if_false]
      rw [ih _ hdiv]

lemma foldl_rev_digits (ds : List Nat) (h : ∀ d ∈ ds, d < 10) :
    List.foldl (fun acc c => 10 * acc + (c.toNat - 48)) 0
      (ds.reverse.map digitChar) = Nat.ofDigits 10 ds := by
  induction ds with
  | nil => simp [Nat.ofDigits]
  | cons d ds ih =>
    have hd : d < 10 := h d (List.mem_cons_self _ _)
    have hds : ∀ x ∈ ds, x < 10 := fun x hx => h x (List.mem_cons_of_mem _ hx)
    simp only [List.reverse_cons, List.map_append, List.foldl_append,
      List.map_cons, List.map_nil, List.foldl_cons, List.foldl_nil]
    rw [ih hds, digitChar_val d hd, Nat.ofDigits_cons]
    ring

lemma natChars_ne_nil (n : Nat) : natChars n ≠ [] := by
  by_cases hn : n = 0
  · subst hn
    decide
  · rcases n with _ | k
    · omega
    · simp only [natChars, hn, if_false]
      intro hc
      have : digitsRevFuel (k + 1) (k + 1) = [] := by
        have := congrArg List.length hc
        simp at this
        exact List.eq_nil_of_length_eq_zero (by simpa using this)
      simp [digitsRevFuel, Nat.succ_ne_zero] at this

lemma natChars_not_pyWs (n : Nat) (c : Char) (h : c ∈ natChars n) :
    pyWs c = false := by
  by_cases hn : n = 0
  · subst hn
    simp only [natChars, if_true] at h
    simp only [List.mem_singleton] at h
    subst h
    decide
  · simp only [natChars, hn, if_false] at h
    rcases List.mem_map.mp h with ⟨d, _, rfl⟩
    exact digitChar_not_pyWs d

lemma natChars_all_digit (n : Nat) : (natChars n).all Char.isDigit = true := by
  rw [List.all_eq_true]
  intro c hc
  by_cases hn : n = 0
  · subst hn
    simp only [natChars, if_true] at hc
    simp only [List.mem_singleton] at hc
    subst hc
    decide
  · simp only [natChars, hn, if_false] at hc
    rcases List.mem_map.mp hc with ⟨d, _, rfl⟩
    exact digitChar_isDigit d

lemma charsToNat_natChars (n : Nat) : charsToNat? (natChars n) = some n := by
  by_cases hn : n = 0
  · subst hn
    decide
  · have hne : natChars n ≠ [] := natChars_ne_nil n
    have hall : (natChars n).all Char.isDigit = true := natChars_all_digit n
    simp only [charsToNat?, hne, hall, ne_eq, not_false_eq_true, and_self,
      if_true, Option.some.injEq]
    simp only [natChars, hn, if_false]
    rw [foldl_rev_digits (natDigitsRev n) (fun d hd => digitsRevFuel_lt n n d hd)]
    rw [show natDigitsRev n = Nat.digits 10 n from digitsRevFuel_eq_digits n n le_rfl]
    exact_mod_cast Nat.ofDigits_digits 10 n

lemma wordsAux_nonws (w : Line) :
    ∀ (l acc : Line), (∀ c ∈ w, pyWs c = false) →
      wordsAux (w ++ l) acc = wordsAux l (w.reverse ++ acc) := by
  induction w with
  | nil => intro l acc _; simp
  | cons c w ih =>
    intro l acc h
    have hc : pyWs c = false := h c (List.mem_cons_self _ _)
    have hw : ∀ x ∈ w, pyWs x = false :=
      fun x hx => h x (List.mem_cons_of_mem _ hx)
    simp only [List.cons_append, wordsAux, hc, Bool.false_eq_true, if_false,
      List.append_eq]
    rw [ih l (c :: acc) hw]
    simp

lemma words_du (m : Nat) (p : Line) :
    words (natChars m ++ '\t' :: p) = natChars m :: words p := by
  unfold words
  rw [wordsAux_nonws (natChars m) ('\t' :: p) [] (fun c hc => natChars_not_pyWs m c hc)]
  have htab : pyWs '\t' = true := by decide
  simp only [List.append_nil, wordsAux, htab, if_true]
  have hne : (natChars m).reverse ≠ [] := by
    simp [natChars_ne_nil m]
  simp only [hne, if_false, List.reverse_reverse]

lemma wordsAux_mem_nonws (l : Line) :
    ∀ (acc : Line), (∀ c ∈ acc, pyWs c = false) →
      ∀ w ∈ wordsAux l acc, ∀ c ∈ w, pyWs c = false := by
  induction l with
  | nil =>
    intro acc hacc w hw c hc
    by_cases ha : acc = []
    · simp [wordsAux, ha] at hw
    · simp only [wordsAux, ha, if_false, List.mem_singleton] at hw
      subst hw
      exact hacc c (List.mem_reverse.mp hc)
  | cons c0 cs ih =>
    intro acc hacc w hw c hc
    by_cases h0 : pyWs c0
    · by_cases ha : acc = []
      · simp only [wordsAux, h0, if_true, ha] at hw
        exact ih [] (by intro x hx; cases hx) w hw c hc
      · simp only [wordsAux, h0, if_true, ha, if_false, List.mem_cons] at hw
        rcases hw with rfl | hw2
        · exact hacc c (List.mem_reverse.mp hc)
        · exact ih [] (by intro x hx; cases hx) w hw2 c hc
    · simp only [wordsAux, h0, if_false] at hw
      refine ih (c0 :: acc) ?_ w hw c hc
      intro x hx
      rcases List.mem_cons.mp hx with rfl | hx2
      · exact Bool.eq_false_iff.mpr h0
      · exact hacc x hx2

lemma splitNl_no_nl (l : Line) (h : ∀ c ∈ l, c ≠ '\n') : splitNl l = [l] := by
  induction l with
  | nil => rfl
  | cons c cs ih =>
    have hc : c ≠ '\n' := h c (List.mem_cons_self _ _)
    have ih2 := ih (fun x hx => h x (List.mem_cons_of_mem _ hx))
    simp only [splitNl, if_neg hc, ih2]

lemma duLine_no_nl (f : Line × Nat)
    (hp : ∀ c ∈ f.1, isLineBoundary c = false) :
    ∀ c ∈ duLine f, c ≠ '\n' := by
  intro c hc
  rcases List.mem_append.mp hc with h1 | h2
  · have hd : c.isDigit = true := by
      have hall := natChars_all_digit f.2
      rw [List.all_eq_true] at hall
      exact hall c h1
    intro hcn
    subst hcn
    exact absurd hd (by decide)
  · rcases List.mem_cons.mp h2 with rfl | h3
    · decide
    · intro hcn
      subst hcn
      exact absurd (hp '\n' h3) (by decide)

lemma pipelineOutput_mem (n : Nat) (files : List (Line × Nat)) (line : Line)
    (h : line ∈ pipelineOutput n files) :
    ∃ f ∈ files, line ∈ splitNl (duLine f) := by
  have h1 : line ∈ List.insertionSort rNR (duPhysLines files) :=
    List.Sublist.mem h (List.take_sublist n _)
  have h2 : line ∈ duPhysLines files := (List.mem_insertionSort rNR).mp h1
  exact List.mem_flatMap.mp h2

lemma pipelineOutput_mem_clean (n : Nat) (files : List (Line × Nat))
    (line : Line)
    (hg : ∀ f ∈ files, ∀ c ∈ f.1, isLineBoundary c = false)
    (h : line ∈ pipelineOutput n files) : ∃ f ∈ files, line = duLine f := by
  obtain ⟨f, hf, hmem⟩ := pipelineOutput_mem n files line h
  rw [splitNl_no_nl (duLine f) (duLine_no_nl f (hg f hf))] at hmem
  exact ⟨f, hf, List.mem_singleton.mp hmem⟩

lemma parseLines_du (L : List Line) (files : List (Line × Nat))
    (h : ∀ line ∈ L, ∃ f ∈ files, line = duLine f) :
    (parseLines L).2 = []
    ∧ ∀ pr ∈ (parseLines L).1,
        ∃ f ∈ files, f.2 = pr.2 ∧ words f.1 = [pr.1] := by
  induction L with
  | nil => exact ⟨rfl, by intro pr hpr; cases hpr⟩
  | cons line rest ih =>
    obtain ⟨f, hf, rfl⟩ := h line (List.mem_cons_self _ _)
    have ihr := ih (fun l hl => h l (List.mem_cons_of_mem _ hl))
    have hw : words (duLine f) = natChars f.2 :: words f.1 := words_du f.2 f.1
    rcases hwp : words f.1 with _ | ⟨p1, ps⟩
    · have hred : parseLines (duLine f :: rest) = parseLines rest := by
        simp only [parseLines, hw, hwp]
      rw [hred]
      exact ihr
    · rcases ps with _ | ⟨p2, ps2⟩
      · have hred : parseLines (duLine f :: rest) =
            ((p1, f.2) :: (parseLines rest).1, (parseLines rest).2) := by
          simp only [parseLines, hw, hwp, charsToNat_natChars]
        rw [hred]
        refine ⟨ihr.1, ?_⟩
        intro pr hpr
        rcases List.mem_cons.mp hpr with rfl | hpr2
        · exact ⟨f, hf, rfl, hwp⟩
        · exact ihr.2 pr hpr2
      · have hred : parseLines (duLine f :: rest) = parseLines rest := by
          simp only [parseLines, hw, hwp]
        rw [hred]
        exact ihr

lemma parseLines_paths_nonws (L : List Line) :
    ∀ pr ∈ (parseLines L).1, ∀ c ∈ pr.1, pyWs c = false := by
  induction L with
  | nil => intro pr hpr; cases hpr
  | cons line rest ih =>
    intro pr hpr c hc
    rcases hwl : words line with _ | ⟨p0, ps⟩
    · have hred : parseLines (line :: rest) = parseLines rest := by
        simp only [parseLines, hwl]
      rw [hred] at hpr
      exact ih pr hpr c hc
    · rcases ps with _ | ⟨p1, ps2⟩
      · have hred : parseLines (line :: rest) = parseLines rest := by
          simp only [parseLines, hwl]
        rw [hred] at hpr
        exact ih pr hpr c hc
      · rcases ps2 with _ | ⟨p2, ps3⟩
        · rcases hcn : charsToNat? p0 with _ | sz
          · have hred : parseLines (line :: rest) =
                ((parseLines rest).1,
                  Msg.skippingInvalidLine line :: (parseLines rest).2) := by
              simp only [parseLines, hwl, hcn]
            rw [hred] at hpr
            exact ih pr hpr c hc
          · have hred : parseLines (line :: rest) =
                ((p1, sz) :: (parseLines rest).1, (parseLines rest).2) := by
              simp only [parseLines, hwl, hcn]
            rw [hred] at hpr
            rcases List.mem_cons.mp hpr with rfl | hpr2
            · have hww : ∀ w ∈ words line, ∀ c ∈ w, pyWs c = false :=
                wordsAux_mem_nonws line [] (by intro x hx; cases hx)
              refine hww p1 ?_ c hc
              rw [hwl]
              exact List.mem_cons_of_mem _ (List.mem_singleton_self _)
            · exact ih pr hpr2 c hc
        · have hred : parseLines (line :: rest) = parseLines rest := by
            simp only [parseLines, hwl]
          rw [hred] at hpr
          exact ih pr hpr c hc

/-- C9 counterexample: a file whose path contains whitespace is not always
omitted: with the single file `"a "` (trailing space) of size 100, its du
record still splits into exactly two fields, so the file is returned — with
the whitespace stripped from its path — rather than omitted. -/
theorem trailing_ws_path_not_omitted :
    (['a', ' '].any pyWs) = true
    ∧ (get_top_disk_files 1 (Except.ok wsFile)).1 ≠ []
    ∧ (get_top_disk_files 1 (Except.ok wsFile)).1 = [(['a'], 100)] := by
  decide

/-- C9 amended: (1) every path in the top-files result is free of Python
whitespace, so no whitespace-containing path ever appears verbatim; (2) for
file sets whose paths are free of line-boundary characters — so every du
entry stays one physical line — the scan prints no diagnostic, and every
returned entry stems from a file whose path splits on whitespace into
exactly the one returned field: a path with interior blanks splits into
more fields and its file is silently omitted even when among the N
largest, while a path with only leading or trailing blanks is retained
stripped; (3) a path with an embedded newline instead has its du text cut
into physical records that are sorted and parsed independently, which can
retain the file truncated and produce spurious entries, as at the
concrete `nlFile` input. -/
theorem ws_path_handling_amended (n : Nat) (files : List (Line × Nat)) :
    (∀ pr ∈ (get_top_disk_files n (Except.ok files)).1,
        ∀ c ∈ pr.1, pyWs c = false)
    ∧ ((∀ f ∈ files, ∀ c ∈ f.1, isLineBoundary c = false) →
        (get_top_disk_files n (Except.ok files)).2 = []
        ∧ ∀ pr ∈ (get_top_disk_files n (Except.ok files)).1,
            ∃ f ∈ files, f.2 = pr.2 ∧ words f.1 = [pr.1])
    ∧ (get_top_disk_files 2 (Except.ok nlFile)).1
        = [(['a'], 1000), (['b'], 900)] := by
  have heq : get_top_disk_files n (Except.ok files)
      = parseLines (pipelineOutput n files) := rfl
  refine ⟨?_, ?_, by decide⟩
  · rw [heq]
    exact parseLines_paths_nonws _
  · intro hg
    have hchar := parseLines_du (pipelineOutput n files) files
      (fun line hl => pipelineOutput_mem_clean n files line hg hl)
    rw [heq]
    exact hchar

/-- Witness for C9 amended at a concrete line-boundary-free file set: the
returned path is whitespace-free, no diagnostic is printed, and the entry
stems from the input file. -/
theorem ws_path_handling_amended_witness :
    (∀ c ∈ (['a'] : Line), pyWs c = false)
    ∧ (get_top_disk_files 1 (Except.ok plainFile)).2 = []
    ∧ ∃ f ∈ plainFile, f.2 = 7 ∧ words f.1 = [['a']] :=
  ⟨(ws_path_handling_amended 1 plainFile).1 (['a'], 7) (by decide),
    ((ws_path_handling_amended 1 plainFile).2.1 (by decide)).1,
    ((ws_path_handling_amended 1 plainFile).2.1 (by decide)).2
      (['a'], 7) (by decide)⟩
